import Mathlib

/-!
Shallow embedding of the ledger subsystem of the wallet/mining demo
(`src/app.py`).  Monetary amounts (Python floats used as exact play-money
values) are modelled as rationals; timestamps (`datetime.utcnow()`) are
modelled as rationals counting seconds, so 24 hours is 86400 and an elapsed
duration in hours is `(t2 - t1) / 3600` (matching
`total_seconds() / 3600.0`).  Database rows become records, tables become
association lists keyed by primary key, SQLAlchemy attribute mutation
becomes a key-preserving in-place update, and each route handler becomes a
function from state to state (plus a result describing the flash/redirect
outcome).  A route failure leaves the state unchanged, exactly as in the
code, where the failing paths return before any mutation is committed.
-/

/-- A row of the `users` table (`class User`, src/app.py). -/
structure UserR where
  username : String
  balance : ℚ
  referral_code : String
  referred_by : Option String
  last_claim_at : Option ℚ
deriving DecidableEq

/-- A row of the `transactions` table (`class Transaction`, src/app.py). -/
structure Tx where
  user_id : Nat
  type : String
  amount : ℚ
  details : String
  created_at : ℚ
deriving DecidableEq

/-- A row of the `products` table (`class Product`, src/app.py). -/
structure ProductR where
  name : String
  slug : String
  price : ℚ
  hourly_rate : ℚ
  active : Bool
deriving DecidableEq

/-- A row of the `purchases` table (`class Purchase`, src/app.py). -/
structure PurchaseR where
  user_id : Nat
  product_id : Nat
  purchased_at : ℚ
  last_mined_at : Option ℚ
  accrued : ℚ
deriving DecidableEq

/-- The database state: the four tables. -/
structure St where
  users : List (Nat × UserR)
  txs : List Tx
  products : List (Nat × ProductR)
  purchases : List PurchaseR
deriving DecidableEq

/-- Primary-key lookup in an association list (`db.get(Model, id)`). -/
def alookup {α : Type} (k : Nat) : List (Nat × α) → Option α
  | [] => none
  | (k2, v) :: rest => if k2 = k then some v else alookup k rest

/-- In-place mutation of the row with key `k` (SQLAlchemy attribute
assignment on the fetched object), leaving every other row untouched. -/
def updAt {α : Type} (k : Nat) (f : α → α) : List (Nat × α) → List (Nat × α)
  | [] => []
  | (k2, v) :: rest => (if k2 = k then (k2, f v) else (k2, v)) :: updAt k f rest

/-- The balance that key `v` reads in a users table (0 when absent). -/
def balAt (v : Nat) (l : List (Nat × UserR)) : ℚ :=
  ((alookup v l).map UserR.balance).getD 0

/-- The balance of user `v` in state `s`. -/
def balanceOf (s : St) (v : Nat) : ℚ := balAt v s.users

/-- Sum of `Transaction.amount` over the rows owned by user `v`. -/
def txSum (v : Nat) : List Tx → ℚ
  | [] => 0
  | t :: ts => (if t.user_id = v then t.amount else 0) + txSum v ts

/-- `db.query(User).filter_by(referral_code=code).first()` — first row
whose referral code matches, together with its key. -/
def findByCode (code : String) : List (Nat × UserR) → Option (Nat × UserR)
  | [] => none
  | (k, u) :: rest =>
    if u.referral_code = code then some (k, u) else findByCode code rest

/-- `db.query(Product).filter_by(slug=slug, active=True).first()`. -/
def findProductBySlug (slug : String) :
    List (Nat × ProductR) → Option (Nat × ProductR)
  | [] => none
  | (k, p) :: rest =>
    if p.slug = slug ∧ p.active = true then some (k, p)
    else findProductBySlug slug rest

/-- The `/recharge` POST handler body (src/app.py lines 225-239):
`amount > 0` credits the balance and records a `recharge` transaction,
anything else is rejected with no state change. -/
def rechargeFn (s : St) (uid : Nat) (amount now : ℚ) : Bool × St :=
  match alookup uid s.users with
  | none => (false, s)
  | some _ =>
    if 0 < amount then
      (true,
        { s with
          users := updAt uid (fun v => { v with balance := v.balance + amount }) s.users,
          txs := Tx.mk uid "recharge" amount "Mobile recharge (demo credit)" now :: s.txs })
    else (false, s)

/-- The `/topup` POST handler body (src/app.py lines 241-255): debits
`amount` when `amount > 0 and user.balance >= amount`, recording a
`topup` transaction with amount `-amount`; otherwise rejected unchanged. -/
def topupFn (s : St) (uid : Nat) (amount now : ℚ) : Bool × St :=
  match alookup uid s.users with
  | none => (false, s)
  | some u =>
    if 0 < amount ∧ amount ≤ u.balance then
      (true,
        { s with
          users := updAt uid (fun v => { v with balance := v.balance - amount }) s.users,
          txs := Tx.mk uid "topup" (-amount) "Diamond top-up (demo spend)" now :: s.txs })
    else (false, s)

/-- The `/dollar` POST handler body (src/app.py lines 257-281): non-positive
amounts rejected first; `"buy"` with sufficient balance debits, `"sell"`
credits, anything else rejected unchanged. -/
def dollarFn (s : St) (uid : Nat) (action : String) (amount now : ℚ) :
    Bool × St :=
  match alookup uid s.users with
  | none => (false, s)
  | some u =>
    if amount ≤ 0 then (false, s)
    else if action = "buy" ∧ amount ≤ u.balance then
      (true,
        { s with
          users := updAt uid (fun v => { v with balance := v.balance - amount }) s.users,
          txs := Tx.mk uid "buy" (-amount) "Bought dollars (demo)" now :: s.txs })
    else if action = "sell" then
      (true,
        { s with
          users := updAt uid (fun v => { v with balance := v.balance + amount }) s.users,
          txs := Tx.mk uid "sell" amount "Sold dollars (demo)" now :: s.txs })
    else (false, s)

/-- `user.balance += bonus; user.last_claim_at = now` in `daily_claim`. -/
def bonusUpd (now : ℚ) (v : UserR) : UserR :=
  { v with balance := v.balance + 5, last_claim_at := some now }

/-- `referrer.balance += 1.0` in `daily_claim`. -/
def refCredit (v : UserR) : UserR := { v with balance := v.balance + 1 }

/-- `user.referred_by = None` in `daily_claim`. -/
def clearRef (v : UserR) : UserR := { v with referred_by := none }

/-- The Python f-string `f"Referral bonus from \x7buser.username\x7d"`. -/
def refDetail (username : String) : String :=
  "Referral bonus from " ++ username

/-- The 24-hour guard of `daily_claim` (src/app.py line 289):
`some remaining` when `last_claim_at` is set and less than 24 hours
(86400 s) have elapsed, where `remaining` is
`timedelta(hours=24) - (now - last_claim_at)`; `none` otherwise. -/
def tooSoonAmount (last : Option ℚ) (now : ℚ) : Option ℚ :=
  match last with
  | some t => if now - t < 86400 then some (86400 - (now - t)) else none
  | none => none

/-- Result of the `/daily-claim` route. -/
inductive DailyResult
  | claimed
  | tooSoon (remaining : ℚ)
  | noUser
deriving DecidableEq

/-- The successful branch of `daily_claim` (src/app.py lines 294-306):
credit the 5.0 bonus and stamp `last_claim_at`, then, when `referred_by`
is set and resolves, credit the referrer 1.0 and clear `referred_by`.
SQLAlchemy's identity map makes the referrer mutation act on the already
bonus-credited row when a user is their own referrer, which the
sequential `updAt`s reproduce. -/
def dailyClaimGo (s : St) (uid : Nat) (u : UserR) (now : ℚ) : St :=
  match u.referred_by with
  | none =>
    { s with users := updAt uid (bonusUpd now) s.users,
             txs := Tx.mk uid "bonus" 5 "Daily claim bonus" now :: s.txs }
  | some c =>
    match findByCode c (updAt uid (bonusUpd now) s.users) with
    | none =>
      { s with users := updAt uid (bonusUpd now) s.users,
               txs := Tx.mk uid "bonus" 5 "Daily claim bonus" now :: s.txs }
    | some (rid, _) =>
      { s with
        users := updAt uid clearRef
          (updAt rid refCredit (updAt uid (bonusUpd now) s.users)),
        txs := Tx.mk rid "bonus" 1 (refDetail u.username) now
          :: Tx.mk uid "bonus" 5 "Daily claim bonus" now :: s.txs }

/-- The `/daily-claim` handler (src/app.py lines 283-309). -/
def dailyClaimFn (s : St) (uid : Nat) (now : ℚ) : DailyResult × St :=
  match alookup uid s.users with
  | none => (DailyResult.noUser, s)
  | some u =>
    match tooSoonAmount u.last_claim_at now with
    | some r => (DailyResult.tooSoon r, s)
    | none => (DailyResult.claimed, dailyClaimGo s uid u now)

/-- Result of the `/buy/<slug>` route. -/
inductive BuyResult
  | ok
  | notFound
  | insufficient
  | noUser
deriving DecidableEq

/-- The `/buy/<slug>` handler (src/app.py lines 345-366): look up an
active product by slug, check the balance, then debit the price, insert a
fresh `Purchase` (whose `purchased_at` and `last_mined_at` default to the
current time and whose `accrued` defaults to 0) and record a
`buy_product` transaction. -/
def buyFn (s : St) (uid : Nat) (slug : String) (now : ℚ) : BuyResult × St :=
  match alookup uid s.users with
  | none => (BuyResult.noUser, s)
  | some u =>
    match findProductBySlug slug s.products with
    | none => (BuyResult.notFound, s)
    | some (pid, p) =>
      if u.balance < p.price then (BuyResult.insufficient, s)
      else
        (BuyResult.ok,
          { s with
            users := updAt uid (fun v => { v with balance := v.balance - p.price }) s.users,
            purchases := PurchaseR.mk uid pid now (some now) 0 :: s.purchases,
            txs := Tx.mk uid "buy_product" (-p.price) ("Bought " ++ p.name) now :: s.txs })

/-- `p.last_mined_at or p.purchased_at` (src/app.py line 376). -/
def lastEff (p : PurchaseR) : ℚ := p.last_mined_at.getD p.purchased_at

/-- The per-purchase accrual step of the `/mining` handler (src/app.py
lines 375-379): if a positive number of hours elapsed since the last
accrual, add `hourly_rate × hours` to `accrued` and advance
`last_mined_at`; otherwise do nothing. -/
def accruePurchase (rate now : ℚ) (p : PurchaseR) : PurchaseR :=
  let hrs := (now - lastEff p) / 3600
  if 0 < hrs then
    { p with accrued := p.accrued + rate * hrs, last_mined_at := some now }
  else p

/-- `p.product.hourly_rate`: the hourly rate behind a purchase's product
foreign key (purchases are only created from existing products, so the
lookup always succeeds on states built by these operations). -/
def rateOf (s : St) (pid : Nat) : ℚ :=
  ((alookup pid s.products).map ProductR.hourly_rate).getD 0

/-- The `/mining` handler (src/app.py lines 368-381): accrue every
purchase owned by the user. -/
def miningViewFn (s : St) (uid : Nat) (now : ℚ) : St :=
  { s with
    purchases := s.purchases.map (fun p =>
      if p.user_id = uid then accruePurchase (rateOf s p.product_id) now p else p) }

/-- The running total of the `/mining/claim` loop (src/app.py lines
388-392): only purchases of the user with strictly positive `accrued`
contribute. -/
def claimTotal (uid : Nat) : List PurchaseR → ℚ
  | [] => 0
  | p :: ps =>
    (if p.user_id = uid ∧ 0 < p.accrued then p.accrued else 0) + claimTotal uid ps

/-- The in-loop reset `p.accrued = 0.0` of `/mining/claim`, applied to
exactly the purchases that contributed to the total. -/
def resetAccrued (uid : Nat) : List PurchaseR → List PurchaseR
  | [] => []
  | p :: ps =>
    (if p.user_id = uid ∧ 0 < p.accrued then { p with accrued := 0 } else p)
      :: resetAccrued uid ps

/-- The `/mining/claim` handler (src/app.py lines 383-398): drain the
positive `accrued` amounts, and only when the total is positive credit it
to the balance with one aggregated `mining` transaction. -/
def miningClaimFn (s : St) (uid : Nat) (now : ℚ) : ℚ × St :=
  match alookup uid s.users with
  | none => (0, s)
  | some _ =>
    if 0 < claimTotal uid s.purchases then
      (claimTotal uid s.purchases,
        { s with
          users := updAt uid
            (fun v => { v with balance := v.balance + claimTotal uid s.purchases })
            s.users,
          purchases := resetAccrued uid s.purchases,
          txs := Tx.mk uid "mining" (claimTotal uid s.purchases)
            "Claimed mining earnings" now :: s.txs })
    else (claimTotal uid s.purchases, { s with purchases := resetAccrued uid s.purchases })

/-- One ledger operation, as invoked by the route handlers. -/
inductive Op
  | recharge (uid : Nat) (amount now : ℚ)
  | topup (uid : Nat) (amount now : ℚ)
  | dollar (uid : Nat) (action : String) (amount now : ℚ)
  | dailyClaim (uid : Nat) (now : ℚ)
  | buyProduct (uid : Nat) (slug : String) (now : ℚ)
  | miningView (uid : Nat) (now : ℚ)
  | miningClaim (uid : Nat) (now : ℚ)

/-- The state transition of one operation (failures leave the state
unchanged, as in the code). -/
def step (s : St) : Op → St
  | Op.recharge uid a n => (rechargeFn s uid a n).2
  | Op.topup uid a n => (topupFn s uid a n).2
  | Op.dollar uid act a n => (dollarFn s uid act a n).2
  | Op.dailyClaim uid n => (dailyClaimFn s uid n).2
  | Op.buyProduct uid sl n => (buyFn s uid sl n).2
  | Op.miningView uid n => miningViewFn s uid n
  | Op.miningClaim uid n => (miningClaimFn s uid n).2

/-- Run a sequence of operations. -/
def runOps (s : St) : List Op → St
  | [] => s
  | op :: ops => runOps (step s op) ops

/-- A freshly registered user (src/app.py lines 168-173): balance 0 (the
column default), no claim yet. -/
def initUser (username refcode : String) (refBy : Option String) : UserR :=
  { username := username, balance := 0, referral_code := refcode,
    referred_by := refBy, last_claim_at := none }

/-- A fresh database: registered users with zero balances, a product
catalog, no transactions, no purchases. -/
def initSt (users : List (Nat × String × String × Option String))
    (products : List (Nat × ProductR)) : St :=
  { users := users.map (fun e => (e.1, initUser e.2.1 e.2.2.1 e.2.2.2)),
    txs := [], products := products, purchases := [] }

/-! ### Association-list lemmas -/

theorem alookup_updAt {α : Type} (k v : Nat) (f : α → α) (l : List (Nat × α)) :
    alookup v (updAt k f l)
      = if k = v then (alookup v l).map f else alookup v l := by
  induction l with
  | nil => simp [alookup, updAt]
  | cons e rest ih =>
    obtain ⟨k2, a⟩ := e
    rw [updAt]
    by_cases h1 : k2 = k
    · rw [if_pos h1]
      by_cases h2 : k2 = v
      · subst h1; subst h2
        simp [alookup]
      · rw [alookup, if_neg h2, ih, alookup, if_neg h2]
    · rw [if_neg h1]
      by_cases h2 : k2 = v
      · have hkv : ¬k = v := fun h => h1 (h2.trans h.symm)
        rw [alookup, if_pos h2, if_neg hkv, alookup, if_pos h2]
      · rw [alookup, if_neg h2, ih, alookup, if_neg h2]

theorem balAt_updAt (k v : Nat) (f : UserR → UserR) (d : ℚ)
    (l : List (Nat × UserR))
    (hf : ∀ x, (f x).balance = x.balance + d)
    (hk : (alookup k l).isSome) :
    balAt v (updAt k f l) = if k = v then balAt v l + d else balAt v l := by
  unfold balAt
  rw [alookup_updAt]
  by_cases hv : k = v
  · subst hv
    obtain ⟨u, hu⟩ := Option.isSome_iff_exists.mp hk
    simp [hu, hf]
  · simp [hv]

theorem balAt_updAt_keep (k v : Nat) (f : UserR → UserR)
    (l : List (Nat × UserR))
    (hf : ∀ x, (f x).balance = x.balance) :
    balAt v (updAt k f l) = balAt v l := by
  unfold balAt
  rw [alookup_updAt]
  by_cases hv : k = v
  · subst hv
    cases h : alookup k l <;> simp [h, hf]
  · simp [hv]

theorem findByCode_key_isSome (c : String) (l : List (Nat × UserR))
    (rid : Nat) (u : UserR) (h : findByCode c l = some (rid, u)) :
    (alookup rid l).isSome := by
  induction l with
  | nil => simp [findByCode] at h
  | cons e rest ih =>
    obtain ⟨k2, a⟩ := e
    by_cases hc : a.referral_code = c
    · rw [findByCode, if_pos hc] at h
      rw [Option.some_inj] at h
      have hk : k2 = rid := congrArg Prod.fst h
      rw [alookup, if_pos hk]
      rfl
    · rw [findByCode, if_neg hc] at h
      rw [alookup]
      by_cases hk : k2 = rid
      · rw [if_pos hk]; rfl
      · rw [if_neg hk]; exact ih h

theorem findByCode_updAt (c : String) (k : Nat) (f : UserR → UserR)
    (l : List (Nat × UserR))
    (hf : ∀ x, (f x).referral_code = x.referral_code) :
    findByCode c (updAt k f l)
      = (findByCode c l).map (fun e => (e.1, if e.1 = k then f e.2 else e.2)) := by
  induction l with
  | nil => simp [findByCode, updAt]
  | cons e rest ih =>
    obtain ⟨k2, a⟩ := e
    rw [updAt]
    by_cases h1 : k2 = k
    · rw [if_pos h1]
      by_cases h2 : a.referral_code = c
      · rw [findByCode, if_pos (by rw [hf]; exact h2), findByCode, if_pos h2]
        simp [h1]
      · rw [findByCode, if_neg (by rw [hf]; exact h2), findByCode, if_neg h2, ih]
    · rw [if_neg h1]
      by_cases h2 : a.referral_code = c
      · rw [findByCode, if_pos h2, findByCode, if_pos h2]
        simp [h1]
      · rw [findByCode, if_neg h2, findByCode, if_neg h2, ih]

/-! ### Every balance mutation is mirrored by a transaction row -/

theorem delta_credit (l : List (Nat × UserR)) (ts : List Tx) (uid : Nat)
    (d : ℚ) (f : UserR → UserR) (ty de : String) (n : ℚ) (v : Nat)
    (hf : ∀ x, (f x).balance = x.balance + d)
    (hk : (alookup uid l).isSome) :
    balAt v (updAt uid f l) - txSum v (Tx.mk uid ty d de n :: ts)
      = balAt v l - txSum v ts := by
  rw [balAt_updAt uid v f d l hf hk]
  simp only [txSum]
  by_cases hv : uid = v
  · simp [hv]
    ring
  · simp [hv]

theorem recharge_delta (s : St) (uid : Nat) (a n : ℚ) (v : Nat) :
    balanceOf (rechargeFn s uid a n).2 v - txSum v (rechargeFn s uid a n).2.txs
      = balanceOf s v - txSum v s.txs := by
  unfold balanceOf rechargeFn
  cases hu : alookup uid s.users with
  | none => simp
  | some u =>
    by_cases ha : 0 < a
    · simp only [if_pos ha]
      exact delta_credit s.users s.txs uid a _ "recharge"
        "Mobile recharge (demo credit)" n v (fun x => rfl) (by rw [hu]; rfl)
    · simp only [if_neg ha]

theorem topup_delta (s : St) (uid : Nat) (a n : ℚ) (v : Nat) :
    balanceOf (topupFn s uid a n).2 v - txSum v (topupFn s uid a n).2.txs
      = balanceOf s v - txSum v s.txs := by
  unfold balanceOf topupFn
  cases hu : alookup uid s.users with
  | none => simp
  | some u =>
    by_cases ha : 0 < a ∧ a ≤ u.balance
    · simp only [if_pos ha]
      exact delta_credit s.users s.txs uid (-a) _ "topup"
        "Diamond top-up (demo spend)" n v
        (fun x => sub_eq_add_neg x.balance a) (by rw [hu]; rfl)
    · simp only [if_neg ha]

theorem dollar_delta (s : St) (uid : Nat) (act : String) (a n : ℚ) (v : Nat) :
    balanceOf (dollarFn s uid act a n).2 v
        - txSum v (dollarFn s uid act a n).2.txs
      = balanceOf s v - txSum v s.txs := by
  unfold balanceOf dollarFn
  cases hu : alookup uid s.users with
  | none => simp
  | some u =>
    by_cases h0 : a ≤ 0
    · simp only [if_pos h0]
    · simp only [if_neg h0]
      by_cases hb : act = "buy" ∧ a ≤ u.balance
      · simp only [if_pos hb]
        exact delta_credit s.users s.txs uid (-a) _ "buy"
          "Bought dollars (demo)" n v
          (fun x => sub_eq_add_neg x.balance a) (by rw [hu]; rfl)
      · simp only [if_neg hb]
        by_cases hs : act = "sell"
        · simp only [if_pos hs]
          exact delta_credit s.users s.txs uid a _ "sell"
            "Sold dollars (demo)" n v (fun x => rfl) (by rw [hu]; rfl)
        · simp only [if_neg hs]

theorem buy_delta (s : St) (uid : Nat) (slug : String) (n : ℚ) (v : Nat) :
    balanceOf (buyFn s uid slug n).2 v - txSum v (buyFn s uid slug n).2.txs
      = balanceOf s v - txSum v s.txs := by
  unfold balanceOf buyFn
  cases hu : alookup uid s.users with
  | none => simp
  | some u =>
    cases hp : findProductBySlug slug s.products with
    | none => simp
    | some e =>
      obtain ⟨pid, p⟩ := e
      by_cases hb : u.balance < p.price
      · simp only [if_pos hb]
      · simp only [if_neg hb]
        exact delta_credit s.users s.txs uid (-p.price) _ "buy_product"
          ("Bought " ++ p.name) n v
          (fun x => sub_eq_add_neg x.balance p.price) (by rw [hu]; rfl)

theorem miningView_delta (s : St) (uid : Nat) (n : ℚ) (v : Nat) :
    balanceOf (miningViewFn s uid n) v - txSum v (miningViewFn s uid n).txs
      = balanceOf s v - txSum v s.txs := rfl

theorem miningClaim_delta (s : St) (uid : Nat) (n : ℚ) (v : Nat) :
    balanceOf (miningClaimFn s uid n).2 v
        - txSum v (miningClaimFn s uid n).2.txs
      = balanceOf s v - txSum v s.txs := by
  unfold balanceOf miningClaimFn
  cases hu : alookup uid s.users with
  | none => simp
  | some u =>
    by_cases ht : 0 < claimTotal uid s.purchases
    · simp only [if_pos ht]
      exact delta_credit s.users s.txs uid (claimTotal uid s.purchases) _
        "mining" "Claimed mining earnings" n v (fun x => rfl) (by rw [hu]; rfl)
    · simp only [if_neg ht]

theorem dailyClaim_delta (s : St) (uid : Nat) (n : ℚ) (v : Nat) :
    balanceOf (dailyClaimFn s uid n).2 v
        - txSum v (dailyClaimFn s uid n).2.txs
      = balanceOf s v - txSum v s.txs := by
  unfold balanceOf dailyClaimFn
  cases hu : alookup uid s.users with
  | none => simp only [hu]
  | some u =>
    simp only [hu]
    cases hg : tooSoonAmount u.last_claim_at n with
    | some r => simp only [hg]
    | none =>
      simp only [hg]
      unfold dailyClaimGo
      cases hr : u.referred_by with
      | none =>
        simp only [hr]
        exact delta_credit s.users s.txs uid 5 (bonusUpd n) "bonus"
          "Daily claim bonus" n v (fun x => rfl) (by rw [hu]; rfl)
      | some c =>
        simp only [hr]
        cases hc : findByCode c (updAt uid (bonusUpd n) s.users) with
        | none =>
          simp only [hc]
          exact delta_credit s.users s.txs uid 5 (bonusUpd n) "bonus"
            "Daily claim bonus" n v (fun x => rfl) (by rw [hu]; rfl)
        | some e =>
          obtain ⟨rid, u2⟩ := e
          simp only [hc]
          show balAt v (updAt uid clearRef
              (updAt rid refCredit (updAt uid (bonusUpd n) s.users)))
            - txSum v (Tx.mk rid "bonus" 1 (refDetail u.username) n
                :: Tx.mk uid "bonus" 5 "Daily claim bonus" n :: s.txs)
            = balAt v s.users - txSum v s.txs
          rw [balAt_updAt_keep uid v clearRef _ (fun x => rfl)]
          rw [delta_credit (updAt uid (bonusUpd n) s.users)
            (Tx.mk uid "bonus" 5 "Daily claim bonus" n :: s.txs) rid 1
            refCredit "bonus" (refDetail u.username) n v (fun x => rfl)
            (findByCode_key_isSome c _ rid u2 hc)]
          exact delta_credit s.users s.txs uid 5 (bonusUpd n) "bonus"
            "Daily claim bonus" n v (fun x => rfl) (by rw [hu]; rfl)

theorem step_delta (s : St) (op : Op) (v : Nat) :
    balanceOf (step s op) v - txSum v (step s op).txs
      = balanceOf s v - txSum v s.txs := by
  cases op with
  | recharge uid a n => exact recharge_delta s uid a n v
  | topup uid a n => exact topup_delta s uid a n v
  | dollar uid act a n => exact dollar_delta s uid act a n v
  | dailyClaim uid n => exact dailyClaim_delta s uid n v
  | buyProduct uid sl n => exact buy_delta s uid sl n v
  | miningView uid n => exact miningView_delta s uid n v
  | miningClaim uid n => exact miningClaim_delta s uid n v

theorem run_delta (s : St) (ops : List Op) (v : Nat) :
    balanceOf (runOps s ops) v - txSum v (runOps s ops).txs
      = balanceOf s v - txSum v s.txs := by
  induction ops generalizing s with
  | nil => rfl
  | cons op ops ih =>
    rw [runOps, ih (step s op)]
    exact step_delta s op v

theorem balAt_init (us : List (Nat × String × String × Option String))
    (v : Nat) :
    balAt v (us.map (fun e => (e.1, initUser e.2.1 e.2.2.1 e.2.2.2))) = 0 := by
  induction us with
  | nil => rfl
  | cons e rest ih =>
    obtain ⟨k, e2⟩ := e
    by_cases hk : k = v
    · simp [balAt, alookup, hk, initUser]
    · simp only [List.map_cons]
      simpa [balAt, alookup, hk] using ih

/-- C1: for every fresh database (all balances 0, no transactions) and
every sequence of ledger operations, each user's balance equals the sum
of the `Transaction.amount` rows recorded for that user, and every single
operation changes a user's balance and that user's transaction sum by
the same quantity. -/
theorem ledger_audit (users0 : List (Nat × String × String × Option String))
    (products0 : List (Nat × ProductR)) (ops : List Op) (uid : Nat) :
    (balanceOf (runOps (initSt users0 products0) ops) uid
      = txSum uid (runOps (initSt users0 products0) ops).txs)
  ∧ ∀ (s : St) (op : Op) (v : Nat),
      balanceOf (step s op) v - txSum v (step s op).txs
        = balanceOf s v - txSum v s.txs := by
  constructor
  · have h := run_delta (initSt users0 products0) ops uid
    have h0 : balanceOf (initSt users0 products0) uid = 0 :=
      balAt_init users0 uid
    have h1 : txSum uid (initSt users0 products0).txs = 0 := rfl
    rw [h0, h1] at h
    linarith
  · exact fun s op v => step_delta s op v

/-! ### Balances never go negative -/

theorem balAt_of_alookup (l : List (Nat × UserR)) (uid : Nat) (u : UserR)
    (hu : alookup uid l = some u) : balAt uid l = u.balance := by
  unfold balAt
  rw [hu]
  rfl

theorem nonneg_after_credit (l : List (Nat × UserR)) (uid : Nat) (d : ℚ)
    (f : UserR → UserR) (hf : ∀ x, (f x).balance = x.balance + d)
    (hk : (alookup uid l).isSome) (hd : 0 ≤ d)
    (h : ∀ w, 0 ≤ balAt w l) (v : Nat) : 0 ≤ balAt v (updAt uid f l) := by
  rw [balAt_updAt uid v f d l hf hk]
  by_cases hv : uid = v
  · rw [if_pos hv]
    have := h v
    linarith
  · rw [if_neg hv]
    exact h v

theorem nonneg_after_debit (l : List (Nat × UserR)) (uid : Nat) (a : ℚ)
    (f : UserR → UserR) (hf : ∀ x, (f x).balance = x.balance - a)
    (u : UserR) (hu : alookup uid l = some u) (hba : a ≤ u.balance)
    (h : ∀ w, 0 ≤ balAt w l) (v : Nat) : 0 ≤ balAt v (updAt uid f l) := by
  rw [balAt_updAt uid v f (-a) l (fun x => by rw [hf]; ring) (by rw [hu]; rfl)]
  by_cases hv : uid = v
  · rw [if_pos hv]
    have hb : balAt v l = u.balance := by
      subst hv
      exact balAt_of_alookup l uid u hu
    rw [hb]
    linarith
  · rw [if_neg hv]
    exact h v

theorem step_nonneg (s : St) (op : Op) (h : ∀ v, 0 ≤ balanceOf s v)
    (v : Nat) : 0 ≤ balanceOf (step s op) v := by
  cases op with
  | recharge uid a n =>
    show 0 ≤ balAt v (rechargeFn s uid a n).2.users
    unfold rechargeFn
    cases hu : alookup uid s.users with
    | none => exact h v
    | some u =>
      simp only [hu]
      by_cases ha : 0 < a
      · simp only [if_pos ha]
        exact nonneg_after_credit s.users uid a _ (fun x => rfl)
          (by rw [hu]; rfl) (le_of_lt ha) h v
      · simp only [if_neg ha]
        exact h v
  | topup uid a n =>
    show 0 ≤ balAt v (topupFn s uid a n).2.users
    unfold topupFn
    cases hu : alookup uid s.users with
    | none => exact h v
    | some u =>
      simp only [hu]
      by_cases ha : 0 < a ∧ a ≤ u.balance
      · simp only [if_pos ha]
        exact nonneg_after_debit s.users uid a _ (fun x => rfl) u hu ha.2 h v
      · simp only [if_neg ha]
        exact h v
  | dollar uid act a n =>
    show 0 ≤ balAt v (dollarFn s uid act a n).2.users
    unfold dollarFn
    cases hu : alookup uid s.users with
    | none => exact h v
    | some u =>
      simp only [hu]
      by_cases h0 : a ≤ 0
      · simp only [if_pos h0]
        exact h v
      · simp only [if_neg h0]
        by_cases hb : act = "buy" ∧ a ≤ u.balance
        · simp only [if_pos hb]
          exact nonneg_after_debit s.users uid a _ (fun x => rfl) u hu hb.2 h v
        · simp only [if_neg hb]
          by_cases hs : act = "sell"
          · simp only [if_pos hs]
            exact nonneg_after_credit s.users uid a _ (fun x => rfl)
              (by rw [hu]; rfl) (by linarith [lt_of_not_le h0]) h v
          · simp only [if_neg hs]
            exact h v
  | dailyClaim uid n =>
    show 0 ≤ balAt v (dailyClaimFn s uid n).2.users
    unfold dailyClaimFn
    cases hu : alookup uid s.users with
    | none => exact h v
    | some u =>
      simp only [hu]
      cases hg : tooSoonAmount u.last_claim_at n with
      | some r => simp only [hg]; exact h v
      | none =>
        simp only [hg]
        unfold dailyClaimGo
        have h1 : ∀ w, 0 ≤ balAt w (updAt uid (bonusUpd n) s.users) :=
          fun w => nonneg_after_credit s.users uid 5 (bonusUpd n)
            (fun x => rfl) (by rw [hu]; rfl) (by norm_num) h w
        cases hr : u.referred_by with
        | none => simp only [hr]; exact h1 v
        | some c =>
          simp only [hr]
          cases hc : findByCode c (updAt uid (bonusUpd n) s.users) with
          | none => simp only [hc]; exact h1 v
          | some e =>
            obtain ⟨rid, u2⟩ := e
            simp only [hc]
            have h2 : ∀ w, 0 ≤ balAt w
                (updAt rid refCredit (updAt uid (bonusUpd n) s.users)) :=
              fun w => nonneg_after_credit _ rid 1 refCredit (fun x => rfl)
                (findByCode_key_isSome c _ rid u2 hc) (by norm_num) h1 w
            rw [show balAt v (updAt uid clearRef
                (updAt rid refCredit (updAt uid (bonusUpd n) s.users)))
              = balAt v (updAt rid refCredit (updAt uid (bonusUpd n) s.users))
              from balAt_updAt_keep uid v clearRef _ (fun x => rfl)]
            exact h2 v
  | buyProduct uid sl n =>
    show 0 ≤ balAt v (buyFn s uid sl n).2.users
    unfold buyFn
    cases hu : alookup uid s.users with
    | none => exact h v
    | some u =>
      simp only [hu]
      cases hp : findProductBySlug sl s.products with
      | none => simp only [hp]; exact h v
      | some e =>
        obtain ⟨pid, p⟩ := e
        simp only [hp]
        by_cases hb : u.balance < p.price
        · simp only [if_pos hb]
          exact h v
        · simp only [if_neg hb]
          exact nonneg_after_debit s.users uid p.price _ (fun x => rfl) u hu
            (le_of_not_lt hb) h v
  | miningView uid n => exact h v
  | miningClaim uid n =>
    show 0 ≤ balAt v (miningClaimFn s uid n).2.users
    unfold miningClaimFn
    cases hu : alookup uid s.users with
    | none => exact h v
    | some u =>
      simp only [hu]
      by_cases ht : 0 < claimTotal uid s.purchases
      · simp only [if_pos ht]
        exact nonneg_after_credit s.users uid (claimTotal uid s.purchases) _
          (fun x => rfl) (by rw [hu]; rfl) (le_of_lt ht) h v
      · simp only [if_neg ht]
        exact h v

theorem run_nonneg (s : St) (ops : List Op) (h : ∀ v, 0 ≤ balanceOf s v)
    (v : Nat) : 0 ≤ balanceOf (runOps s ops) v := by
  induction ops generalizing s with
  | nil => exact h v
  | cons op ops ih =>
    rw [runOps]
    exact ih (step s op) (step_nonneg s op h)

/-- C2: starting from fresh users with balance 0 (and a catalog of
products with non-negative prices and hourly rates), every user's balance
stays non-negative after any sequence of ledger operations: each debiting
operation checks that the balance covers the amount before subtracting. -/
theorem balance_nonneg (users0 : List (Nat × String × String × Option String))
    (products0 : List (Nat × ProductR)) (ops : List Op) (uid : Nat)
    (hp : ∀ e ∈ products0, 0 ≤ e.2.price ∧ 0 ≤ e.2.hourly_rate) :
    0 ≤ balanceOf (runOps (initSt users0 products0) ops) uid :=
  run_nonneg (initSt users0 products0) ops
    (fun v => le_of_eq (balAt_init users0 v).symm) uid

/-! ### The 24-hour guard of the daily claim -/

theorem tooSoonAmount_eq_none (last : Option ℚ) (now : ℚ) :
    tooSoonAmount last now = none ↔
      (last = none ∨ ∀ t, last = some t → 86400 ≤ now - t) := by
  cases last with
  | none => simp [tooSoonAmount]
  | some t =>
    constructor
    · intro h1
      right
      intro t2 ht2
      injection ht2 with ht2
      subst ht2
      by_contra hlt
      push_neg at hlt
      simp [tooSoonAmount, hlt] at h1
    · intro h1
      rcases h1 with h1 | h1
      · exact absurd h1 (by simp)
      · have h2 := h1 t rfl
        simp [tooSoonAmount, not_lt.mpr h2]

theorem dailyClaimFn_claimed_guard (s : St) (uid : Nat) (now : ℚ) (u : UserR)
    (hu : alookup uid s.users = some u)
    (h : (dailyClaimFn s uid now).1 = DailyResult.claimed) :
    tooSoonAmount u.last_claim_at now = none := by
  unfold dailyClaimFn at h
  cases hg : tooSoonAmount u.last_claim_at now with
  | none => rfl
  | some r =>
    simp only [hu, hg] at h
    exact absurd h (by simp)

theorem dailyClaimGo_last_claim (s : St) (uid : Nat) (u : UserR) (now : ℚ)
    (hu : alookup uid s.users = some u) :
    (alookup uid (dailyClaimGo s uid u now).users).map UserR.last_claim_at
      = some (some now) := by
  unfold dailyClaimGo
  cases hr : u.referred_by with
  | none =>
    rw [alookup_updAt]
    simp [hu, bonusUpd]
  | some c =>
    cases hc : findByCode c (updAt uid (bonusUpd now) s.users) with
    | none =>
      simp only [hc]
      rw [alookup_updAt]
      simp [hu, bonusUpd]
    | some e =>
      obtain ⟨rid, u2⟩ := e
      simp only [hc]
      rw [alookup_updAt]
      simp only [if_pos rfl]
      rw [alookup_updAt]
      by_cases hru : rid = uid
      · simp [hru, alookup_updAt, hu, bonusUpd, refCredit, clearRef]
      · simp [hru, alookup_updAt, hu, bonusUpd, refCredit, clearRef]

/-- C4: `daily_claim` rejects with the too-soon result (carrying the
remaining duration) exactly when `last_claim_at` is set and less than 24
hours old, leaving the state unchanged; otherwise (no previous claim, or
at least 24 hours elapsed — including exactly 24) it succeeds, records
the 5.0 `bonus` transaction, stamps `last_claim_at := now`, and (when no
referral is pending) credits exactly 5; two successive successful claims
are always at least 24 hours apart. -/
theorem dailyClaim_spec (s : St) (uid : Nat) (now : ℚ) (u : UserR)
    (hu : alookup uid s.users = some u) :
    (∀ t, u.last_claim_at = some t → now - t < 86400 →
      dailyClaimFn s uid now = (DailyResult.tooSoon (86400 - (now - t)), s))
  ∧ ((u.last_claim_at = none ∨
        ∀ t, u.last_claim_at = some t → 86400 ≤ now - t) →
      (dailyClaimFn s uid now).1 = DailyResult.claimed
    ∧ (alookup uid (dailyClaimFn s uid now).2.users).map UserR.last_claim_at
        = some (some now)
    ∧ (∃ pre, (dailyClaimFn s uid now).2.txs
        = pre ++ Tx.mk uid "bonus" 5 "Daily claim bonus" now :: s.txs)
    ∧ (u.referred_by = none →
        (dailyClaimFn s uid now).2.txs
          = Tx.mk uid "bonus" 5 "Daily claim bonus" now :: s.txs
      ∧ balanceOf (dailyClaimFn s uid now).2 uid = balanceOf s uid + 5))
  ∧ (∀ t2, (dailyClaimFn s uid now).1 = DailyResult.claimed →
      (dailyClaimFn (dailyClaimFn s uid now).2 uid t2).1 = DailyResult.claimed →
      86400 ≤ t2 - now) := by
  refine ⟨?_, ?_, ?_⟩
  · intro t ht hlt
    unfold dailyClaimFn
    simp only [hu, tooSoonAmount, ht, if_pos hlt]
  · intro hok
    have hnone : tooSoonAmount u.last_claim_at now = none :=
      (tooSoonAmount_eq_none u.last_claim_at now).mpr hok
    have hfn : dailyClaimFn s uid now
        = (DailyResult.claimed, dailyClaimGo s uid u now) := by
      unfold dailyClaimFn
      simp only [hu, hnone]
    rw [hfn]
    refine ⟨rfl, dailyClaimGo_last_claim s uid u now hu, ?_, ?_⟩
    · unfold dailyClaimGo
      cases hr : u.referred_by with
      | none => exact ⟨[], rfl⟩
      | some c =>
        cases hc : findByCode c (updAt uid (bonusUpd now) s.users) with
        | none =>
          simp only [hc]
          exact ⟨[], rfl⟩
        | some e =>
          obtain ⟨rid, u2⟩ := e
          simp only [hc]
          exact ⟨[Tx.mk rid "bonus" 1 (refDetail u.username) now], rfl⟩
    · intro hr
      unfold dailyClaimGo
      rw [hr]
      constructor
      · rfl
      · show balAt uid (updAt uid (bonusUpd now) s.users) = balAt uid s.users + 5
        rw [balAt_updAt uid uid (bonusUpd now) 5 s.users (fun x => rfl)
          (by rw [hu]; rfl)]
        rw [if_pos rfl]
  · intro t2 h1 h2
    have hnone : tooSoonAmount u.last_claim_at now = none :=
      dailyClaimFn_claimed_guard s uid now u hu h1
    have hfn : dailyClaimFn s uid now
        = (DailyResult.claimed, dailyClaimGo s uid u now) := by
      unfold dailyClaimFn
      simp only [hu, hnone]
    rw [hfn] at h2
    have hlc := dailyClaimGo_last_claim s uid u now hu
    cases hu2 : alookup uid (dailyClaimGo s uid u now).users with
    | none => rw [hu2] at hlc; exact absurd hlc (by simp)
    | some u2 =>
      rw [hu2] at hlc
      have hl2 : u2.last_claim_at = some now := by
        simpa using hlc
      have hg2 : tooSoonAmount u2.last_claim_at t2 = none :=
        dailyClaimFn_claimed_guard _ uid t2 u2 hu2 h2
      rcases (tooSoonAmount_eq_none u2.last_claim_at t2).mp hg2 with h | h
      · rw [hl2] at h
        exact absurd h (by simp)
      · exact h now hl2

/-- A concrete fresh user and database used to witness the daily-claim
contract. -/
def wUser4 : UserR := UserR.mk "dana" 0 "DDDD4444" none none

/-- A one-user database for the daily-claim witness. -/
def wSt4 : St := St.mk [(4, wUser4)] [] [] []

/-- Witness instantiating the daily-claim contract at a concrete state. -/
theorem dailyClaim_spec_witness :
    alookup 4 wSt4.users = some wUser4
  ∧ ((∀ t, wUser4.last_claim_at = some t → 0 - t < 86400 →
      dailyClaimFn wSt4 4 0 = (DailyResult.tooSoon (86400 - (0 - t)), wSt4))
  ∧ ((wUser4.last_claim_at = none ∨
        ∀ t, wUser4.last_claim_at = some t → 86400 ≤ 0 - t) →
      (dailyClaimFn wSt4 4 0).1 = DailyResult.claimed
    ∧ (alookup 4 (dailyClaimFn wSt4 4 0).2.users).map UserR.last_claim_at
        = some (some 0)
    ∧ (∃ pre, (dailyClaimFn wSt4 4 0).2.txs
        = pre ++ Tx.mk 4 "bonus" 5 "Daily claim bonus" 0 :: wSt4.txs)
    ∧ (wUser4.referred_by = none →
        (dailyClaimFn wSt4 4 0).2.txs
          = Tx.mk 4 "bonus" 5 "Daily claim bonus" 0 :: wSt4.txs
      ∧ balanceOf (dailyClaimFn wSt4 4 0).2 4 = balanceOf wSt4 4 + 5))
  ∧ (∀ t2, (dailyClaimFn wSt4 4 0).1 = DailyResult.claimed →
      (dailyClaimFn (dailyClaimFn wSt4 4 0).2 4 t2).1 = DailyResult.claimed →
      86400 ≤ t2 - 0)) :=
  ⟨rfl, dailyClaim_spec wSt4 4 0 wUser4 rfl⟩

/-- Witness instantiating the non-negative-balance theorem at a concrete
catalog and operation sequence. -/
theorem balance_nonneg_witness :
    (∀ e ∈ [(1, ProductR.mk "Starter Rig" "starter-rig" 100 2 true)],
        0 ≤ e.2.price ∧ 0 ≤ e.2.hourly_rate)
  ∧ 0 ≤ balanceOf (runOps
      (initSt [(1, "alice", "AAAA1111", none)]
        [(1, ProductR.mk "Starter Rig" "starter-rig" 100 2 true)])
      [Op.recharge 1 20 0, Op.topup 1 5 10]) 1 :=
  ⟨by decide,
    balance_nonneg [(1, "alice", "AAAA1111", none)]
      [(1, ProductR.mk "Starter Rig" "starter-rig" 100 2 true)]
      [Op.recharge 1 20 0, Op.topup 1 5 10] 1 (by decide)⟩

/-! ### Topup (debit) and product purchase contracts -/

/-- C7: the topup debit is rejected whenever the requested amount exceeds
the balance, and whenever the amount is non-positive, leaving balance and
transaction history unchanged; on success it subtracts the amount and
appends a transaction storing the negated amount. -/
theorem topup_spec (s : St) (uid : Nat) (amount now : ℚ) (u : UserR)
    (hu : alookup uid s.users = some u) :
    (u.balance < amount → topupFn s uid amount now = (false, s))
  ∧ (amount ≤ 0 → topupFn s uid amount now = (false, s))
  ∧ (0 < amount → amount ≤ u.balance →
      (topupFn s uid amount now).1 = true
    ∧ balanceOf (topupFn s uid amount now).2 uid = balanceOf s uid - amount
    ∧ (topupFn s uid amount now).2.txs
        = Tx.mk uid "topup" (-amount) "Diamond top-up (demo spend)" now
            :: s.txs) := by
  refine ⟨?_, ?_, ?_⟩
  · intro hlt
    unfold topupFn
    simp only [hu]
    rw [if_neg (fun hcon => absurd hcon.2 (not_le.mpr hlt))]
  · intro h0
    unfold topupFn
    simp only [hu]
    rw [if_neg (fun hcon => absurd hcon.1 (not_lt.mpr h0))]
  · intro ha hb
    have hfn : topupFn s uid amount now
        = (true,
          { s with
            users := updAt uid
              (fun v => { v with balance := v.balance - amount }) s.users,
            txs := Tx.mk uid "topup" (-amount) "Diamond top-up (demo spend)"
              now :: s.txs }) := by
      unfold topupFn
      simp only [hu]
      rw [if_pos ⟨ha, hb⟩]
    rw [hfn]
    refine ⟨rfl, ?_, rfl⟩
    show balAt uid (updAt uid _ s.users) = balAt uid s.users - amount
    rw [balAt_updAt uid uid _ (-amount) s.users
      (fun x => sub_eq_add_neg x.balance amount) (by rw [hu]; rfl)]
    rw [if_pos rfl]
    ring

theorem findProductBySlug_eq_none (slug : String)
    (l : List (Nat × ProductR)) :
    findProductBySlug slug l = none ↔
      ∀ e ∈ l, ¬(e.2.slug = slug ∧ e.2.active = true) := by
  induction l with
  | nil => simp [findProductBySlug]
  | cons e rest ih =>
    obtain ⟨k, p⟩ := e
    by_cases hc : p.slug = slug ∧ p.active = true
    · simp [findProductBySlug, hc]
    · simp [findProductBySlug, hc, ih]
      intro _ hps
      rcases Bool.eq_false_or_eq_true p.active with h | h
      · exact absurd ⟨hps, h⟩ hc
      · exact h

/-- C8: the purchase succeeds exactly when an active product with the
slug exists and the balance covers its price; on success it debits the
price with a `buy_product` transaction and inserts a purchase whose
`purchased_at` and `last_mined_at` both equal the purchase time and whose
`accrued` is 0; a missing/inactive product or an insufficient balance
leaves the state unchanged. -/
theorem buy_spec (s : St) (uid : Nat) (slug : String) (now : ℚ) (u : UserR)
    (hu : alookup uid s.users = some u) :
    (findProductBySlug slug s.products = none ↔
      ∀ e ∈ s.products, ¬(e.2.slug = slug ∧ e.2.active = true))
  ∧ (findProductBySlug slug s.products = none →
      buyFn s uid slug now = (BuyResult.notFound, s))
  ∧ (∀ pid p, findProductBySlug slug s.products = some (pid, p) →
      (u.balance < p.price →
        buyFn s uid slug now = (BuyResult.insufficient, s))
    ∧ (p.price ≤ u.balance →
        (buyFn s uid slug now).1 = BuyResult.ok
      ∧ balanceOf (buyFn s uid slug now).2 uid = balanceOf s uid - p.price
      ∧ (buyFn s uid slug now).2.txs
          = Tx.mk uid "buy_product" (-p.price) ("Bought " ++ p.name) now
              :: s.txs
      ∧ (buyFn s uid slug now).2.purchases
          = PurchaseR.mk uid pid now (some now) 0 :: s.purchases)) := by
  refine ⟨findProductBySlug_eq_none slug s.products, ?_, ?_⟩
  · intro hn
    unfold buyFn
    simp only [hu, hn]
  · intro pid p hp
    constructor
    · intro hlt
      unfold buyFn
      simp only [hu, hp]
      rw [if_pos hlt]
    · intro hle
      have hfn : buyFn s uid slug now
          = (BuyResult.ok,
            { s with
              users := updAt uid
                (fun v => { v with balance := v.balance - p.price }) s.users,
              purchases := PurchaseR.mk uid pid now (some now) 0 :: s.purchases,
              txs := Tx.mk uid "buy_product" (-p.price) ("Bought " ++ p.name)
                now :: s.txs }) := by
        unfold buyFn
        simp only [hu, hp]
        rw [if_neg (not_lt.mpr hle)]
      rw [hfn]
      refine ⟨rfl, ?_, rfl, rfl⟩
      show balAt uid (updAt uid _ s.users) = balAt uid s.users - p.price
      rw [balAt_updAt uid uid _ (-p.price) s.users
        (fun x => sub_eq_add_neg x.balance p.price) (by rw [hu]; rfl)]
      rw [if_pos rfl]
      ring

/-- A concrete user with balance 10 for the topup witness. -/
def wUser7 : UserR := UserR.mk "ed" 10 "EEEE7777" none none

/-- A one-user database for the topup witness. -/
def wSt7 : St := St.mk [(7, wUser7)] [] [] []

/-- Witness instantiating the topup contract at a concrete state. -/
theorem topup_spec_witness :
    alookup 7 wSt7.users = some wUser7
  ∧ ((wUser7.balance < 4 → topupFn wSt7 7 4 0 = (false, wSt7))
  ∧ ((4:ℚ) ≤ 0 → topupFn wSt7 7 4 0 = (false, wSt7))
  ∧ ((0:ℚ) < 4 → (4:ℚ) ≤ wUser7.balance →
      (topupFn wSt7 7 4 0).1 = true
    ∧ balanceOf (topupFn wSt7 7 4 0).2 7 = balanceOf wSt7 7 - 4
    ∧ (topupFn wSt7 7 4 0).2.txs
        = Tx.mk 7 "topup" (-4) "Diamond top-up (demo spend)" 0
            :: wSt7.txs)) :=
  ⟨rfl, topup_spec wSt7 7 4 0 wUser7 rfl⟩

/-- A concrete user with balance 150 for the purchase witness. -/
def wUser8 : UserR := UserR.mk "fay" 150 "FFFF8888" none none

/-- A concrete active product for the purchase witness. -/
def wProd8 : ProductR := ProductR.mk "Pro Miner" "pro-miner" 100 3 true

/-- A database with one user and one product for the purchase witness. -/
def wSt8 : St := St.mk [(8, wUser8)] [] [(2, wProd8)] []

/-- Witness instantiating the purchase contract at a concrete state. -/
theorem buy_spec_witness :
    alookup 8 wSt8.users = some wUser8
  ∧ ((findProductBySlug "pro-miner" wSt8.products = none ↔
      ∀ e ∈ wSt8.products, ¬(e.2.slug = "pro-miner" ∧ e.2.active = true))
  ∧ (findProductBySlug "pro-miner" wSt8.products = none →
      buyFn wSt8 8 "pro-miner" 0 = (BuyResult.notFound, wSt8))
  ∧ (∀ pid p, findProductBySlug "pro-miner" wSt8.products = some (pid, p) →
      (wUser8.balance < p.price →
        buyFn wSt8 8 "pro-miner" 0 = (BuyResult.insufficient, wSt8))
    ∧ (p.price ≤ wUser8.balance →
        (buyFn wSt8 8 "pro-miner" 0).1 = BuyResult.ok
      ∧ balanceOf (buyFn wSt8 8 "pro-miner" 0).2 8
          = balanceOf wSt8 8 - p.price
      ∧ (buyFn wSt8 8 "pro-miner" 0).2.txs
          = Tx.mk 8 "buy_product" (-p.price) ("Bought " ++ p.name) 0
              :: wSt8.txs
      ∧ (buyFn wSt8 8 "pro-miner" 0).2.purchases
          = PurchaseR.mk 8 pid 0 (some 0) 0 :: wSt8.purchases))) :=
  ⟨rfl, buy_spec wSt8 8 "pro-miner" 0 wUser8 rfl⟩

/-! ### Time-based accrual -/

theorem div3600_pos_iff (x : ℚ) : 0 < x / 3600 ↔ 0 < x := by
  rw [lt_div_iff₀ (by norm_num : (0:ℚ) < 3600), zero_mul]

/-- C5 (amended): provided the first accrual time `t1` is not earlier
than the purchase's effective last-mined time (`last_mined_at`, falling
back to `purchased_at`), accruing at `t1` and then at `t2 > t1` increases
`accrued` by exactly `hourly_rate × (t2 - t1 in hours)` over the state
after the first accrual and advances `last_mined_at` to `t2`; and
accruing twice at the same instant is always idempotent. -/
theorem accrue_delta (rate t1 t2 : ℚ) (p : PurchaseR)
    (h0 : lastEff p ≤ t1) (h12 : t1 < t2) :
    ((accruePurchase rate t2 (accruePurchase rate t1 p)).accrued
      = (accruePurchase rate t1 p).accrued + rate * ((t2 - t1) / 3600))
  ∧ ((accruePurchase rate t2 (accruePurchase rate t1 p)).last_mined_at
      = some t2)
  ∧ ∀ (t : ℚ) (q : PurchaseR),
      accruePurchase rate t (accruePurchase rate t q)
        = accruePurchase rate t q := by
  have hidem : ∀ (t : ℚ) (q : PurchaseR),
      accruePurchase rate t (accruePurchase rate t q)
        = accruePurchase rate t q := by
    intro t q
    unfold accruePurchase
    by_cases h : 0 < (t - lastEff q) / 3600
    · rw [if_pos h]
      simp [lastEff]
    · rw [if_neg h, if_neg h]
  have h2 : ∀ q : PurchaseR, lastEff q = t1 →
      accruePurchase rate t2 q
        = { q with accrued := q.accrued + rate * ((t2 - t1) / 3600),
                   last_mined_at := some t2 } := by
    intro q hq
    unfold accruePurchase
    rw [hq, if_pos ((div3600_pos_iff _).mpr (by linarith))]
  rcases eq_or_lt_of_le h0 with heq | hlt
  · have h1 : accruePurchase rate t1 p = p := by
      unfold accruePurchase
      rw [if_neg (by rw [div3600_pos_iff]; linarith)]
    refine ⟨?_, ?_, hidem⟩ <;> rw [h1, h2 p heq]
  · have h1 : accruePurchase rate t1 p
        = { p with accrued := p.accrued + rate * ((t1 - lastEff p) / 3600),
                   last_mined_at := some t1 } := by
      unfold accruePurchase
      rw [if_pos ((div3600_pos_iff _).mpr (by linarith))]
    have hl1 : lastEff { p with
        accrued := p.accrued + rate * ((t1 - lastEff p) / 3600),
        last_mined_at := some t1 } = t1 := rfl
    refine ⟨?_, ?_, hidem⟩ <;> rw [h1, h2 _ hl1]

/-- A purchase whose `last_mined_at` (2 hours) is later than the times
the claim is instantiated at. -/
def cexP5 : PurchaseR := PurchaseR.mk 1 1 0 (some 7200) 0

/-- C5 counterexample: for this purchase and t1 = 0 < t2 = 3600 both
accrual calls are no-ops (both instants precede `last_mined_at`), so
`accrued` increases by 0 rather than `hourly_rate × (t2 - t1 in hours)`,
and `last_mined_at` is not advanced to t2. -/
theorem accrue_cex :
    ((0:ℚ) < 3600)
  ∧ ¬(((accruePurchase 1 3600 (accruePurchase 1 0 cexP5)).accrued
        = (accruePurchase 1 0 cexP5).accrued + 1 * ((3600 - 0) / 3600))
      ∧ (accruePurchase 1 3600 (accruePurchase 1 0 cexP5)).last_mined_at
        = some 3600) := by
  have hn1 : ¬(0 < ((0:ℚ) - lastEff cexP5) / 3600) := by
    rw [div3600_pos_iff]
    norm_num [cexP5, lastEff]
  have hn2 : ¬(0 < ((3600:ℚ) - lastEff cexP5) / 3600) := by
    rw [div3600_pos_iff]
    norm_num [cexP5, lastEff]
  have h1 : accruePurchase 1 0 cexP5 = cexP5 := by
    unfold accruePurchase
    rw [if_neg hn1]
  have h2 : accruePurchase 1 3600 cexP5 = cexP5 := by
    unfold accruePurchase
    rw [if_neg hn2]
  refine ⟨by norm_num, ?_⟩
  rw [h1, h2]
  intro hcon
  have ha := hcon.1
  norm_num [cexP5] at ha

/-- A freshly bought purchase for the accrual witness. -/
def wP5 : PurchaseR := PurchaseR.mk 1 1 0 (some 0) 0

/-- Witness instantiating the amended accrual property at concrete
times. -/
theorem accrue_delta_witness :
    lastEff wP5 ≤ 3600 ∧ ((3600:ℚ) < 7200)
  ∧ (((accruePurchase 2 7200 (accruePurchase 2 3600 wP5)).accrued
      = (accruePurchase 2 3600 wP5).accrued + 2 * ((7200 - 3600) / 3600))
    ∧ ((accruePurchase 2 7200 (accruePurchase 2 3600 wP5)).last_mined_at
      = some 7200)
    ∧ ∀ (t : ℚ) (q : PurchaseR),
        accruePurchase 2 t (accruePurchase 2 t q)
          = accruePurchase 2 t q) :=
  ⟨by decide, by decide, accrue_delta 2 3600 7200 wP5 (by decide) (by decide)⟩

/-! ### Mining claim -/

/-- Sum of `accrued` over all of a user's purchases. -/
def accruedSum (uid : Nat) : List PurchaseR → ℚ
  | [] => 0
  | p :: ps => (if p.user_id = uid then p.accrued else 0) + accruedSum uid ps

theorem claimTotal_eq_accruedSum (uid : Nat) (ps : List PurchaseR)
    (h : ∀ p ∈ ps, p.user_id = uid → 0 ≤ p.accrued) :
    claimTotal uid ps = accruedSum uid ps := by
  induction ps with
  | nil => rfl
  | cons p ps ih =>
    rw [claimTotal, accruedSum,
      ih (fun q hq => h q (List.mem_cons_of_mem p hq))]
    congr 1
    by_cases huid : p.user_id = uid
    · by_cases hacc : 0 < p.accrued
      · rw [if_pos ⟨huid, hacc⟩, if_pos huid]
      · have h0 : p.accrued = 0 :=
          le_antisymm (not_lt.mp hacc) (h p (List.mem_cons_self p ps) huid)
        rw [if_neg (fun hcon => hacc hcon.2), if_pos huid, h0]
    · rw [if_neg (fun hcon => huid hcon.1), if_neg huid]

theorem accruedSum_nonneg (uid : Nat) (ps : List PurchaseR)
    (h : ∀ p ∈ ps, p.user_id = uid → 0 ≤ p.accrued) :
    0 ≤ accruedSum uid ps := by
  induction ps with
  | nil => exact le_refl 0
  | cons p ps ih =>
    rw [accruedSum]
    have hterm : 0 ≤ (if p.user_id = uid then p.accrued else 0) := by
      by_cases hu : p.user_id = uid
      · rw [if_pos hu]
        exact h p (List.mem_cons_self p ps) hu
      · rw [if_neg hu]
    have htail := ih (fun q hq => h q (List.mem_cons_of_mem p hq))
    linarith

theorem accruedSum_zero (uid : Nat) (ps : List PurchaseR)
    (h : ∀ p ∈ ps, p.user_id = uid → 0 ≤ p.accrued)
    (hz : accruedSum uid ps = 0) :
    ∀ p ∈ ps, ¬(p.user_id = uid ∧ 0 < p.accrued) := by
  induction ps with
  | nil => intro p hp; cases hp
  | cons p ps ih =>
    rw [accruedSum] at hz
    have hterm : 0 ≤ (if p.user_id = uid then p.accrued else 0) := by
      by_cases hu : p.user_id = uid
      · rw [if_pos hu]
        exact h p (List.mem_cons_self p ps) hu
      · rw [if_neg hu]
    have htail := accruedSum_nonneg uid ps
      (fun q hq => h q (List.mem_cons_of_mem p hq))
    have hz2 : accruedSum uid ps = 0 := by linarith
    intro q hq
    rcases List.mem_cons.mp hq with hq | hq
    · subst hq
      intro hcon
      rw [if_pos hcon.1] at hterm hz
      linarith [hcon.2]
    · exact ih (fun r hr => h r (List.mem_cons_of_mem p hr)) hz2 q hq

theorem resetAccrued_of_none (uid : Nat) (ps : List PurchaseR)
    (h : ∀ p ∈ ps, ¬(p.user_id = uid ∧ 0 < p.accrued)) :
    resetAccrued uid ps = ps := by
  induction ps with
  | nil => rfl
  | cons p ps ih =>
    rw [resetAccrued, if_neg (h p (List.mem_cons_self p ps)),
      ih (fun q hq => h q (List.mem_cons_of_mem p hq))]

theorem resetAccrued_user_zero (uid : Nat) (ps : List PurchaseR)
    (h : ∀ p ∈ ps, p.user_id = uid → 0 ≤ p.accrued) :
    ∀ p ∈ resetAccrued uid ps, p.user_id = uid → p.accrued = 0 := by
  induction ps with
  | nil => intro p hp; cases hp
  | cons p ps ih =>
    rw [resetAccrued]
    intro q hq hqu
    rcases List.mem_cons.mp hq with hq | hq
    · subst hq
      by_cases hc : p.user_id = uid ∧ 0 < p.accrued
      · rw [if_pos hc] at hqu ⊢
      · rw [if_neg hc] at hqu ⊢
        have hge := h p (List.mem_cons_self p ps) hqu
        have hnlt : ¬0 < p.accrued := fun hlt => hc ⟨hqu, hlt⟩
        linarith [not_lt.mp hnlt]
    · exact ih (fun r hr => h r (List.mem_cons_of_mem p hr)) q hq hqu

/-- C6: on states whose accrued amounts are non-negative (the data-model
invariant), the mining claim returns the sum of `accrued` over all of the
user's purchases, zeroes every one of the user's purchases, credits
exactly that total with a single `mining` transaction when it is
positive, and is a complete no-op — no transaction, unchanged state —
when the total is zero. -/
theorem miningClaim_spec (s : St) (uid : Nat) (now : ℚ) (u : UserR)
    (hu : alookup uid s.users = some u)
    (hacc : ∀ p ∈ s.purchases, p.user_id = uid → 0 ≤ p.accrued) :
    ((miningClaimFn s uid now).1 = accruedSum uid s.purchases)
  ∧ (∀ p ∈ (miningClaimFn s uid now).2.purchases,
      p.user_id = uid → p.accrued = 0)
  ∧ (0 < accruedSum uid s.purchases →
      balanceOf (miningClaimFn s uid now).2 uid
        = balanceOf s uid + accruedSum uid s.purchases
    ∧ (miningClaimFn s uid now).2.txs
        = Tx.mk uid "mining" (accruedSum uid s.purchases)
            "Claimed mining earnings" now :: s.txs)
  ∧ (accruedSum uid s.purchases = 0 → (miningClaimFn s uid now).2 = s) := by
  have hct := claimTotal_eq_accruedSum uid s.purchases hacc
  by_cases ht : 0 < claimTotal uid s.purchases
  · have hfn : miningClaimFn s uid now
        = (claimTotal uid s.purchases,
          { s with
            users := updAt uid
              (fun v => { v with
                balance := v.balance + claimTotal uid s.purchases }) s.users,
            purchases := resetAccrued uid s.purchases,
            txs := Tx.mk uid "mining" (claimTotal uid s.purchases)
              "Claimed mining earnings" now :: s.txs }) := by
      unfold miningClaimFn
      simp only [hu]
      rw [if_pos ht]
    rw [hfn]
    refine ⟨hct, resetAccrued_user_zero uid s.purchases hacc, ?_, ?_⟩
    · intro hpos
      constructor
      · show balAt uid (updAt uid _ s.users)
          = balAt uid s.users + accruedSum uid s.purchases
        rw [balAt_updAt uid uid _ (claimTotal uid s.purchases) s.users
          (fun x => rfl) (by rw [hu]; rfl)]
        rw [if_pos rfl, hct]
      · rw [hct]
    · intro hz
      rw [hct] at ht
      exact absurd hz (ne_of_gt ht)
  · have hfn : miningClaimFn s uid now
        = (claimTotal uid s.purchases,
          { s with purchases := resetAccrued uid s.purchases }) := by
      unfold miningClaimFn
      simp only [hu]
      rw [if_neg ht]
    rw [hfn]
    refine ⟨hct, resetAccrued_user_zero uid s.purchases hacc, ?_, ?_⟩
    · intro hpos
      rw [← hct] at hpos
      exact absurd hpos ht
    · intro hz
      rw [hct] at ht
      have := resetAccrued_of_none uid s.purchases
        (accruedSum_zero uid s.purchases hacc hz)
      rw [this]

/-- A user and purchases for the mining-claim witness: two purchases with
positive accrued amounts and one belonging to another user. -/
def wUser6 : UserR := UserR.mk "gil" 0 "GGGG6666" none none

/-- Database for the mining-claim witness. -/
def wSt6 : St := St.mk [(6, wUser6)] [] []
  [PurchaseR.mk 6 1 0 (some 100) 3, PurchaseR.mk 6 1 0 (some 200) 4,
   PurchaseR.mk 9 1 0 (some 300) 7]

/-- Witness instantiating the mining-claim contract at a concrete
state. -/
theorem miningClaim_spec_witness :
    alookup 6 wSt6.users = some wUser6
  ∧ (∀ p ∈ wSt6.purchases, p.user_id = 6 → 0 ≤ p.accrued)
  ∧ (((miningClaimFn wSt6 6 400).1 = accruedSum 6 wSt6.purchases)
  ∧ (∀ p ∈ (miningClaimFn wSt6 6 400).2.purchases,
      p.user_id = 6 → p.accrued = 0)
  ∧ (0 < accruedSum 6 wSt6.purchases →
      balanceOf (miningClaimFn wSt6 6 400).2 6
        = balanceOf wSt6 6 + accruedSum 6 wSt6.purchases
    ∧ (miningClaimFn wSt6 6 400).2.txs
        = Tx.mk 6 "mining" (accruedSum 6 wSt6.purchases)
            "Claimed mining earnings" 400 :: wSt6.txs)
  ∧ (accruedSum 6 wSt6.purchases = 0 → (miningClaimFn wSt6 6 400).2 = wSt6)) :=
  ⟨rfl, by decide, miningClaim_spec wSt6 6 400 wUser6 rfl (by decide)⟩

/-! ### Frame of the mining claim -/

theorem resetAccrued_map_frame (uid : Nat) (ps : List PurchaseR) :
    (resetAccrued uid ps).map
      (fun p => (p.user_id, p.product_id, p.purchased_at, p.last_mined_at))
    = ps.map
      (fun p => (p.user_id, p.product_id, p.purchased_at, p.last_mined_at)) := by
  induction ps with
  | nil => rfl
  | cons p ps ih =>
    rw [resetAccrued, List.map_cons, List.map_cons, ih]
    by_cases hc : p.user_id = uid ∧ 0 < p.accrued
    · rw [if_pos hc]
    · rw [if_neg hc]

theorem resetAccrued_map_lastEff (uid : Nat) (ps : List PurchaseR) :
    (resetAccrued uid ps).map lastEff = ps.map lastEff := by
  induction ps with
  | nil => rfl
  | cons p ps ih =>
    rw [resetAccrued, List.map_cons, List.map_cons, ih]
    by_cases hc : p.user_id = uid ∧ 0 < p.accrued
    · rw [if_pos hc]
      rfl
    · rw [if_neg hc]

theorem resetAccrued_mem_other (uid : Nat) (ps : List PurchaseR) :
    ∀ p ∈ ps, p.user_id ≠ uid → p ∈ resetAccrued uid ps := by
  induction ps with
  | nil => intro p hp; cases hp
  | cons q ps ih =>
    intro p hp hne
    rw [resetAccrued]
    rcases List.mem_cons.mp hp with hp | hp
    · subst hp
      rw [if_neg (fun hcon => hne hcon.1)]
      exact List.mem_cons_self _ _
    · exact List.mem_cons_of_mem _ (ih p hp hne)

theorem alookup_map_frame (k : Nat) (f : UserR → UserR)
    (l : List (Nat × UserR))
    (hf : ∀ x, (f x).username = x.username
      ∧ (f x).referral_code = x.referral_code
      ∧ (f x).referred_by = x.referred_by
      ∧ (f x).last_claim_at = x.last_claim_at) (v : Nat) :
    (alookup v (updAt k f l)).map
      (fun x => (x.username, x.referral_code, x.referred_by, x.last_claim_at))
    = (alookup v l).map
      (fun x => (x.username, x.referral_code, x.referred_by,
        x.last_claim_at)) := by
  rw [alookup_updAt]
  by_cases hv : k = v
  · rw [if_pos hv]
    cases h : alookup v l <;> simp [hf]
  · rw [if_neg hv]

/-- C10: the mining claim only zeroes the user's positive accrued amounts
and credits the balance: every purchase's owner, product,
`purchased_at`, `last_mined_at` — hence its effective last-mined time,
the input of the next accrual — and every user's `username`,
`referral_code`, `referred_by` and `last_claim_at` are unchanged, the
catalog is unchanged, and purchases of other users are untouched. -/
theorem miningClaim_frame (s : St) (uid : Nat) (now : ℚ) :
    ((miningClaimFn s uid now).2.purchases.map
        (fun p => (p.user_id, p.product_id, p.purchased_at, p.last_mined_at))
      = s.purchases.map
        (fun p => (p.user_id, p.product_id, p.purchased_at, p.last_mined_at)))
  ∧ ((miningClaimFn s uid now).2.purchases.map lastEff
      = s.purchases.map lastEff)
  ∧ (∀ v, (alookup v (miningClaimFn s uid now).2.users).map
        (fun x => (x.username, x.referral_code, x.referred_by,
          x.last_claim_at))
      = (alookup v s.users).map
        (fun x => (x.username, x.referral_code, x.referred_by,
          x.last_claim_at)))
  ∧ ((miningClaimFn s uid now).2.products = s.products)
  ∧ (∀ p ∈ s.purchases, p.user_id ≠ uid →
      p ∈ (miningClaimFn s uid now).2.purchases) := by
  unfold miningClaimFn
  cases hu : alookup uid s.users with
  | none => exact ⟨rfl, rfl, fun v => rfl, rfl, fun p hp _ => hp⟩
  | some u =>
    simp only [hu]
    by_cases ht : 0 < claimTotal uid s.purchases
    · rw [if_pos ht]
      exact ⟨resetAccrued_map_frame uid s.purchases,
        resetAccrued_map_lastEff uid s.purchases,
        fun v => alookup_map_frame uid
          (fun x => { x with
            balance := x.balance + claimTotal uid s.purchases }) s.users
          (fun x => ⟨rfl, rfl, rfl, rfl⟩) v,
        rfl,
        resetAccrued_mem_other uid s.purchases⟩
    · rw [if_neg ht]
      exact ⟨resetAccrued_map_frame uid s.purchases,
        resetAccrued_map_lastEff uid s.purchases,
        fun v => rfl, rfl,
        resetAccrued_mem_other uid s.purchases⟩

/-! ### Unresolvable referral codes -/

/-- A user whose pending referral code matches no user's referral
code. -/
def cexUser3 : UserR := UserR.mk "alice" 0 "AAAA1111" (some "ZZZZ9999") none

/-- One-user database for the unresolvable-referral counterexample. -/
def cexSt3 : St := St.mk [(1, cexUser3)] [] [] []

/-- C3 counterexample: the daily claim succeeds and the referrer bonus is
skipped, but `referred_by` is NOT cleared — after the claim it still
holds the unresolvable code, contradicting the claim that it is treated
as consumed. -/
theorem daily_claim_unresolvable_cex :
    (dailyClaimFn cexSt3 1 0).1 = DailyResult.claimed
  ∧ (alookup 1 (dailyClaimFn cexSt3 1 0).2.users).map UserR.referred_by
      = some (some "ZZZZ9999") := by
  decide

/-- C3 (amended): when the pending referral code resolves to no user, the
daily claim still succeeds and silently skips the referrer bonus — only
the user's own 5.0 bonus transaction is appended and no other user's
balance changes — but `referred_by` is left set (not cleared), so the
referral stays pending for later claims. -/
theorem daily_claim_unresolvable (s : St) (uid : Nat) (now : ℚ) (u : UserR)
    (c : String) (hu : alookup uid s.users = some u)
    (hr : u.referred_by = some c)
    (hg : tooSoonAmount u.last_claim_at now = none)
    (hc : findByCode c s.users = none) :
    (dailyClaimFn s uid now).1 = DailyResult.claimed
  ∧ (alookup uid (dailyClaimFn s uid now).2.users).map UserR.referred_by
      = some (some c)
  ∧ (dailyClaimFn s uid now).2.txs
      = Tx.mk uid "bonus" 5 "Daily claim bonus" now :: s.txs
  ∧ (∀ v, v ≠ uid →
      balanceOf (dailyClaimFn s uid now).2 v = balanceOf s v) := by
  have hc1 : findByCode c (updAt uid (bonusUpd now) s.users) = none := by
    rw [findByCode_updAt c uid (bonusUpd now) s.users (fun x => rfl), hc]
    rfl
  have hfn : dailyClaimFn s uid now
      = (DailyResult.claimed,
        { s with users := updAt uid (bonusUpd now) s.users,
                 txs := Tx.mk uid "bonus" 5 "Daily claim bonus" now
                   :: s.txs }) := by
    unfold dailyClaimFn
    simp only [hu, hg]
    unfold dailyClaimGo
    simp only [hr, hc1]
  rw [hfn]
  refine ⟨rfl, ?_, rfl, ?_⟩
  · show (alookup uid (updAt uid (bonusUpd now) s.users)).map UserR.referred_by
      = some (some c)
    rw [alookup_updAt, if_pos rfl, hu]
    show some ((bonusUpd now u).referred_by) = some (some c)
    rw [show (bonusUpd now u).referred_by = u.referred_by from rfl, hr]
  · intro v hv
    show balAt v (updAt uid (bonusUpd now) s.users) = balAt v s.users
    rw [balAt_updAt uid v (bonusUpd now) 5 s.users (fun x => rfl)
      (by rw [hu]; rfl)]
    rw [if_neg (fun h => hv h.symm)]

/-- Witness instantiating the amended unresolvable-referral behavior at a
concrete state. -/
theorem daily_claim_unresolvable_witness :
    alookup 1 cexSt3.users = some cexUser3
  ∧ cexUser3.referred_by = some "ZZZZ9999"
  ∧ tooSoonAmount cexUser3.last_claim_at 0 = none
  ∧ findByCode "ZZZZ9999" cexSt3.users = none
  ∧ ((dailyClaimFn cexSt3 1 0).1 = DailyResult.claimed
  ∧ (alookup 1 (dailyClaimFn cexSt3 1 0).2.users).map UserR.referred_by
      = some (some "ZZZZ9999")
  ∧ (dailyClaimFn cexSt3 1 0).2.txs
      = Tx.mk 1 "bonus" 5 "Daily claim bonus" 0 :: cexSt3.txs
  ∧ (∀ v, v ≠ 1 →
      balanceOf (dailyClaimFn cexSt3 1 0).2 v = balanceOf cexSt3 v)) :=
  ⟨rfl, rfl, rfl, rfl,
    daily_claim_unresolvable cexSt3 1 0 cexUser3 "ZZZZ9999" rfl rfl rfl rfl⟩

/-! ### The referral bonus fires at most once -/

/-- The state after one `/daily-claim` request. -/
def dailyStep (s : St) (uid : Nat) (t : ℚ) : St := (dailyClaimFn s uid t).2

/-- Whether a daily claim by `uid` at time `t` pays a referral bonus: a
paying claim appends two transactions (the user's bonus and the
referrer's), every other outcome appends at most one. -/
def paidInStep (s : St) (uid : Nat) (t : ℚ) : Bool :=
  decide (s.txs.length + 2 ≤ (dailyStep s uid t).txs.length)

/-- Number of referral payments triggered by a sequence of daily claims
by `uid` at the given times. -/
def paysCount (s : St) (uid : Nat) : List ℚ → Nat
  | [] => 0
  | t :: ts =>
    (if paidInStep s uid t then 1 else 0)
      + paysCount (dailyStep s uid t) uid ts

theorem paidInStep_iff (s : St) (uid : Nat) (t : ℚ) :
    paidInStep s uid t = true ↔
      ∃ u c e, alookup uid s.users = some u
        ∧ tooSoonAmount u.last_claim_at t = none
        ∧ u.referred_by = some c
        ∧ findByCode c (updAt uid (bonusUpd t) s.users) = some e := by
  unfold paidInStep dailyStep
  rw [decide_eq_true_eq]
  unfold dailyClaimFn
  cases hu : alookup uid s.users with
  | none =>
    simp only [hu]
    constructor
    · intro h
      exact absurd h (by omega)
    · rintro ⟨u, c, e, h1, -⟩
      cases h1
  | some u =>
    simp only [hu]
    cases hg : tooSoonAmount u.last_claim_at t with
    | some r =>
      simp only [hg]
      constructor
      · intro h
        exact absurd h (by omega)
      · rintro ⟨u2, c, e, h1, h2, -⟩
        rw [Option.some_inj] at h1
        subst h1
        rw [hg] at h2
        cases h2
    | none =>
      simp only [hg]
      unfold dailyClaimGo
      cases hr : u.referred_by with
      | none =>
        simp only [hr]
        constructor
        · intro h
          simp only [List.length_cons] at h
          exact absurd h (by omega)
        · rintro ⟨u2, c, e, h1, -, h3, -⟩
          rw [Option.some_inj] at h1
          subst h1
          rw [hr] at h3
          cases h3
      | some c =>
        simp only [hr]
        cases hc : findByCode c (updAt uid (bonusUpd t) s.users) with
        | none =>
          simp only [hc]
          constructor
          · intro h
            simp only [List.length_cons] at h
            exact absurd h (by omega)
          · rintro ⟨u2, c2, e, h1, -, h3, h4⟩
            rw [Option.some_inj] at h1
            subst h1
            rw [hr, Option.some_inj] at h3
            subst h3
            rw [hc] at h4
            cases h4
        | some e =>
          obtain ⟨rid, u2⟩ := e
          simp only [hc]
          constructor
          · intro _
            exact ⟨u, c, (rid, u2), rfl, hg, hr, hc⟩
          · intro _
            simp only [List.length_cons]
            omega

/-- A user's pending referral (if any) resolves to no user. -/
def RefDead (s : St) (uid : Nat) : Prop :=
  ∀ u c, alookup uid s.users = some u → u.referred_by = some c →
    findByCode c s.users = none

theorem findByCode_none_updAt (c : String) (k : Nat) (f : UserR → UserR)
    (l : List (Nat × UserR))
    (hf : ∀ x, (f x).referral_code = x.referral_code)
    (h : findByCode c l = none) : findByCode c (updAt k f l) = none := by
  rw [findByCode_updAt c k f l hf, h]
  rfl

theorem dailyStep_referred_by (s : St) (uid : Nat) (t : ℚ) :
    (paidInStep s uid t = true →
      (alookup uid (dailyStep s uid t).users).map UserR.referred_by
        = some none)
  ∧ (paidInStep s uid t = false →
      (alookup uid (dailyStep s uid t).users).map UserR.referred_by
        = (alookup uid s.users).map UserR.referred_by) := by
  constructor
  · intro hp
    obtain ⟨u, c, e, hu, hg, hr, hc⟩ := (paidInStep_iff s uid t).mp hp
    obtain ⟨rid, u2⟩ := e
    have hstep : dailyStep s uid t
        = { s with
            users := updAt uid clearRef
              (updAt rid refCredit (updAt uid (bonusUpd t) s.users)),
            txs := Tx.mk rid "bonus" 1 (refDetail u.username) t
              :: Tx.mk uid "bonus" 5 "Daily claim bonus" t :: s.txs } := by
      unfold dailyStep dailyClaimFn
      simp only [hu, hg]
      unfold dailyClaimGo
      simp only [hr, hc]
    rw [hstep]
    show (alookup uid (updAt uid clearRef
        (updAt rid refCredit (updAt uid (bonusUpd t) s.users)))).map
        UserR.referred_by = some none
    rw [alookup_updAt, if_pos rfl]
    cases hX2 : alookup uid (updAt rid refCredit
        (updAt uid (bonusUpd t) s.users)) with
    | none =>
      have hX : (alookup uid (updAt rid refCredit
          (updAt uid (bonusUpd t) s.users))).isSome := by
        rw [alookup_updAt]
        by_cases h : rid = uid
        · rw [if_pos h, alookup_updAt, if_pos rfl, hu]
          rfl
        · rw [if_neg h, alookup_updAt, if_pos rfl, hu]
          rfl
      rw [hX2] at hX
      cases hX
    | some w => rfl
  · intro hp
    unfold dailyStep dailyClaimFn
    cases hu : alookup uid s.users with
    | none => simp [hu]
    | some u =>
      simp only [hu]
      cases hg : tooSoonAmount u.last_claim_at t with
      | some r => simp only [hg]; rw [hu]
      | none =>
        simp only [hg]
        unfold dailyClaimGo
        cases hr : u.referred_by with
        | none =>
          simp only [hr]
          show (alookup uid (updAt uid (bonusUpd t) s.users)).map
              UserR.referred_by = (some u).map UserR.referred_by
          rw [alookup_updAt, if_pos rfl, hu]
          rfl
        | some c =>
          simp only [hr]
          cases hc : findByCode c (updAt uid (bonusUpd t) s.users) with
          | none =>
            simp only [hc]
            show (alookup uid (updAt uid (bonusUpd t) s.users)).map
                UserR.referred_by = (some u).map UserR.referred_by
            rw [alookup_updAt, if_pos rfl, hu]
            rfl
          | some e =>
            obtain ⟨rid, u2⟩ := e
            have := (paidInStep_iff s uid t).mpr ⟨u, c, (rid, u2), hu, hg, hr, hc⟩
            rw [hp] at this
            cases this

theorem dailyStep_findByCode_none (s : St) (uid : Nat) (t : ℚ) (c : String)
    (h : findByCode c s.users = none) :
    findByCode c (dailyStep s uid t).users = none := by
  unfold dailyStep dailyClaimFn
  cases hu : alookup uid s.users with
  | none => simpa using h
  | some u =>
    simp only [hu]
    cases hg : tooSoonAmount u.last_claim_at t with
    | some r => simpa [hg] using h
    | none =>
      simp only [hg]
      unfold dailyClaimGo
      cases hr : u.referred_by with
      | none =>
        simp only [hr]
        exact findByCode_none_updAt c uid (bonusUpd t) s.users
          (fun x => rfl) h
      | some c2 =>
        simp only [hr]
        cases hc : findByCode c2 (updAt uid (bonusUpd t) s.users) with
        | none =>
          simp only [hc]
          exact findByCode_none_updAt c uid (bonusUpd t) s.users
            (fun x => rfl) h
        | some e =>
          obtain ⟨rid, u2⟩ := e
          simp only [hc]
          exact findByCode_none_updAt c uid clearRef _ (fun x => rfl)
            (findByCode_none_updAt c rid refCredit _ (fun x => rfl)
              (findByCode_none_updAt c uid (bonusUpd t) s.users
                (fun x => rfl) h))

theorem refDead_after_pay (s : St) (uid : Nat) (t : ℚ)
    (hp : paidInStep s uid t = true) : RefDead (dailyStep s uid t) uid := by
  intro w c2 hw hwr
  have h1 := (dailyStep_referred_by s uid t).1 hp
  rw [hw] at h1
  have h2 : w.referred_by = none := by simpa using h1
  rw [hwr] at h2
  cases h2

theorem refDead_step (s : St) (uid : Nat) (t : ℚ) (hd : RefDead s uid) :
    paidInStep s uid t = false ∧ RefDead (dailyStep s uid t) uid := by
  have hnp : paidInStep s uid t = false := by
    rw [Bool.eq_false_iff]
    intro hp
    obtain ⟨u, c, e, hu, hg, hr, hc⟩ := (paidInStep_iff s uid t).mp hp
    have hnone := hd u c hu hr
    have h2 : findByCode c (updAt uid (bonusUpd t) s.users) = none :=
      findByCode_none_updAt c uid (bonusUpd t) s.users (fun x => rfl) hnone
    rw [h2] at hc
    cases hc
  refine ⟨hnp, ?_⟩
  intro w c2 hw hwr
  have hkeep := (dailyStep_referred_by s uid t).2 hnp
  rw [hw] at hkeep
  cases hu : alookup uid s.users with
  | none =>
    rw [hu] at hkeep
    cases hkeep
  | some u =>
    rw [hu] at hkeep
    have hur : u.referred_by = some c2 := by
      have : w.referred_by = u.referred_by := by simpa using hkeep
      rw [← this, hwr]
    exact dailyStep_findByCode_none s uid t c2 (hd u c2 hu hur)

theorem paysCount_zero (s : St) (uid : Nat) (ts : List ℚ)
    (hd : RefDead s uid) : paysCount s uid ts = 0 := by
  induction ts generalizing s with
  | nil => rfl
  | cons t ts ih =>
    obtain ⟨hnp, hd2⟩ := refDead_step s uid t hd
    rw [paysCount, hnp, ih _ hd2]
    simp

theorem paysCount_le_one (s : St) (uid : Nat) (ts : List ℚ) :
    paysCount s uid ts ≤ 1 := by
  induction ts generalizing s with
  | nil => exact Nat.zero_le 1
  | cons t ts ih =>
    rw [paysCount]
    cases hp : paidInStep s uid t
    · simpa using ih (dailyStep s uid t)
    · have h0 := paysCount_zero (dailyStep s uid t) uid ts
        (refDead_after_pay s uid t hp)
      simp [h0]

/-- A second referred user whose pending code matches no user, for the
referral-consumption counterexample. -/
def cexUser9 : UserR := UserR.mk "bob" 0 "BBBB2222" (some "QQQQ0000") none

/-- One-user database for the referral-consumption counterexample. -/
def cexSt9 : St := St.mk [(2, cexUser9)] [] [] []

/-- C9 counterexample: the referred user's first successful daily claim
does NOT consume `referred_by` when the code resolves to no user — after
the claim it is still set, so consumption is not "exactly at the first
successful daily claim". -/
theorem referral_consume_cex :
    (dailyClaimFn cexSt9 2 100).1 = DailyResult.claimed
  ∧ ¬((alookup 2 (dailyClaimFn cexSt9 2 100).2.users).map UserR.referred_by
      = some none) := by
  decide

/-- C9 (amended): across any sequence of daily claims by a user the
referral bonus is paid at most once; a paying claim clears `referred_by`
(it is consumed exactly when the bonus is paid, at the first successful
claim whose code resolves), and a non-paying claim leaves `referred_by`
unchanged — in particular an unresolvable code is never cleared and its
referrer is never paid. -/
theorem referral_paid_at_most_once (s : St) (uid : Nat) (ts : List ℚ) :
    paysCount s uid ts ≤ 1
  ∧ ∀ t : ℚ,
      (paidInStep s uid t = true →
        (alookup uid (dailyStep s uid t).users).map UserR.referred_by
          = some none)
    ∧ (paidInStep s uid t = false →
        (alookup uid (dailyStep s uid t).users).map UserR.referred_by
          = (alookup uid s.users).map UserR.referred_by) :=
  ⟨paysCount_le_one s uid ts, fun t => dailyStep_referred_by s uid t⟩

/-- Witness instantiating the at-most-once referral property at a
concrete state and claim times. -/
theorem referral_paid_at_most_once_witness :
    paysCount cexSt9 2 [0, 90000] ≤ 1
  ∧ ∀ t : ℚ,
      (paidInStep cexSt9 2 t = true →
        (alookup 2 (dailyStep cexSt9 2 t).users).map UserR.referred_by
          = some none)
    ∧ (paidInStep cexSt9 2 t = false →
        (alookup 2 (dailyStep cexSt9 2 t).users).map UserR.referred_by
          = (alookup 2 cexSt9.users).map UserR.referred_by) :=
  referral_paid_at_most_once cexSt9 2 [0, 90000]

/-- Witness instantiating the ledger audit at a concrete database and
operation sequence. -/
theorem ledger_audit_witness :
    (balanceOf (runOps (initSt [(1, "ann", "AAAA0001", none)]
        [(1, ProductR.mk "Mega Farm" "mega-farm" 500 7 true)])
        [Op.recharge 1 50 0, Op.dollar 1 "sell" 3 5, Op.dailyClaim 1 9]) 1
      = txSum 1 (runOps (initSt [(1, "ann", "AAAA0001", none)]
        [(1, ProductR.mk "Mega Farm" "mega-farm" 500 7 true)])
        [Op.recharge 1 50 0, Op.dollar 1 "sell" 3 5, Op.dailyClaim 1 9]).txs)
  ∧ ∀ (s : St) (op : Op) (v : Nat),
      balanceOf (step s op) v - txSum v (step s op).txs
        = balanceOf s v - txSum v s.txs :=
  ledger_audit [(1, "ann", "AAAA0001", none)]
    [(1, ProductR.mk "Mega Farm" "mega-farm" 500 7 true)]
    [Op.recharge 1 50 0, Op.dollar 1 "sell" 3 5, Op.dailyClaim 1 9] 1

/-- A database with one purchase of the user and one of a stranger, for
the mining-claim frame witness. -/
def wSt10 : St := St.mk [(3, UserR.mk "hal" 9 "HHHH3333" none (some 0))] []
  [(1, ProductR.mk "Starter Rig" "starter-rig" 100 2 true)]
  [PurchaseR.mk 3 1 0 (some 50) 6, PurchaseR.mk 5 1 0 none 2]

/-- Witness instantiating the mining-claim frame at a concrete state. -/
theorem miningClaim_frame_witness :
    ((miningClaimFn wSt10 3 77).2.purchases.map
        (fun p => (p.user_id, p.product_id, p.purchased_at, p.last_mined_at))
      = wSt10.purchases.map
        (fun p => (p.user_id, p.product_id, p.purchased_at, p.last_mined_at)))
  ∧ ((miningClaimFn wSt10 3 77).2.purchases.map lastEff
      = wSt10.purchases.map lastEff)
  ∧ (∀ v, (alookup v (miningClaimFn wSt10 3 77).2.users).map
        (fun x => (x.username, x.referral_code, x.referred_by,
          x.last_claim_at))
      = (alookup v wSt10.users).map
        (fun x => (x.username, x.referral_code, x.referred_by,
          x.last_claim_at)))
  ∧ ((miningClaimFn wSt10 3 77).2.products = wSt10.products)
  ∧ (∀ p ∈ wSt10.purchases, p.user_id ≠ 3 →
      p ∈ (miningClaimFn wSt10 3 77).2.purchases) :=
  miningClaim_frame wSt10 3 77
